import Mathlib

/-!
Verification of the brownify recipe compiler and executor.

The definitions below are a shallow embedding of `src/brownify/parsers.py`
(grammar, token classifier, pipeline compiler), `src/brownify/models.py`
(`Pipeline`, `Track`) and `src/brownify/runners.py`
(`PipelineProcessor._process`).  The pyparsing grammar is modelled as a
PEG-style recursive-descent parser over `List Char` with pyparsing's
semantics: whitespace skipped before every terminal, ordered choice for
`MatchFirst` (`|`), greedy non-backtracking `ZeroOrMore`, `Keyword`
boundary checks, and `parseString(parseAll=True)` requiring the whole
input to be consumed.
-/

namespace Brownify

/-- Characters pyparsing skips as default whitespace before each terminal. -/
def isWsChar (c : Char) : Bool := c == ' ' || c == '\t' || c == '\n' || c == '\r'

/-- pyparsing `Keyword` default `identChars`: alphanumerics plus `_` and `$`.
A keyword match fails when the character following it is one of these. -/
def isIdentChar (c : Char) : Bool := c.isAlphanum || c == '_' || c == '$'

/-- Skip leading whitespace (pyparsing `preParse`). -/
def skipWs : List Char → List Char
  | [] => []
  | c :: cs => if isWsChar c then skipWs cs else c :: cs

theorem skipWs_length_le (cs : List Char) : (skipWs cs).length ≤ cs.length := by
  induction cs with
  | nil => simp [skipWs]
  | cons c cs ih =>
    unfold skipWs
    split
    · exact Nat.le_trans ih (Nat.le_succ _)
    · simp

theorem not_ws_of_alnum {c : Char} (h : c.isAlphanum = true) : isWsChar c = false := by
  rcases hc : isWsChar c with _ | _
  · rfl
  · exfalso
    simp only [isWsChar, Bool.or_eq_true, beq_iff_eq] at hc
    rcases hc with ((rfl | rfl) | rfl) | rfl <;> exact absurd h (by decide)

theorem skipWs_cons_of_alnum {c : Char} {cs : List Char} (h : c.isAlphanum = true) :
    skipWs (c :: cs) = c :: cs := by
  unfold skipWs
  rw [not_ws_of_alnum h]
  simp

theorem isPrefixOf_iff {l t : List Char} : l.isPrefixOf t = true ↔ ∃ r, t = l ++ r := by
  induction l generalizing t with
  | nil => simp [List.isPrefixOf]
  | cons a as ih =>
    cases t with
    | nil =>
      simp only [List.isPrefixOf]
      constructor
      · intro h; exact absurd h (by simp)
      · rintro ⟨r, hr⟩; exact absurd hr (by simp)
    | cons b bs =>
      simp only [List.isPrefixOf, Bool.and_eq_true, beq_iff_eq, ih]
      constructor
      · rintro ⟨rfl, r, rfl⟩; exact ⟨r, rfl⟩
      · rintro ⟨r, hr⟩
        injection hr with h1 h2
        exact ⟨h1.symm, r, h2⟩

/-- pyparsing `Literal`: match the exact character sequence after skipping whitespace. -/
def pLit (lit : List Char) (cs : List Char) : Option (List Char) :=
  if lit.isPrefixOf (skipWs cs) then some ((skipWs cs).drop lit.length) else none

theorem pLit_le {lit cs r} (h : pLit lit cs = some r) : r.length ≤ cs.length := by
  unfold pLit at h
  split at h
  · injection h with h
    subst h
    calc ((skipWs cs).drop lit.length).length ≤ (skipWs cs).length := by
            rw [List.length_drop]; omega
      _ ≤ cs.length := skipWs_length_le cs
  · exact absurd h (by simp)

theorem pLit_lt {lit cs r} (hlit : lit ≠ []) (h : pLit lit cs = some r) :
    r.length < cs.length := by
  unfold pLit at h
  split at h
  next hpre =>
    injection h with h
    subst h
    rcases isPrefixOf_iff.mp hpre with ⟨rest, hrest⟩
    have h1 : (skipWs cs).length ≤ cs.length := skipWs_length_le cs
    have h2 : lit.length ≥ 1 := by
      cases lit with
      | nil => exact absurd rfl hlit
      | cons x xs => simp
    rw [List.length_drop]
    rw [hrest, List.length_append] at h1 ⊢
    omega
  · exact absurd h (by simp)

/-- pyparsing `Keyword`: literal match that must not be followed by an identifier
character.  (The preceding-character check never fires in this grammar because
`Word` matches are maximal and all other terminals end in non-identifier
characters, so it is omitted.) -/
def pKeyword (kw : List Char) (cs : List Char) : Option (List Char) :=
  if kw.isPrefixOf (skipWs cs) then
    if ((skipWs cs).drop kw.length).head?.any isIdentChar then none
    else some ((skipWs cs).drop kw.length)
  else none

theorem pKeyword_le {kw cs r} (h : pKeyword kw cs = some r) : r.length ≤ cs.length := by
  unfold pKeyword at h
  split at h
  · split at h
    · exact absurd h (by simp)
    · injection h with h
      subst h
      have h1 : (skipWs cs).length ≤ cs.length := skipWs_length_le cs
      have h2 : ((skipWs cs).drop kw.length).length ≤ (skipWs cs).length := by
        rw [List.length_drop]; omega
      omega
  · exact absurd h (by simp)

/-- pyparsing `Word(alphanums)`: a maximal nonempty run of alphanumeric characters. -/
def pWord (cs : List Char) : Option (String × List Char) :=
  match (skipWs cs).takeWhile Char.isAlphanum with
  | [] => none
  | c :: w => some (⟨c :: w⟩, (skipWs cs).dropWhile Char.isAlphanum)

theorem pWord_lt {cs w r} (h : pWord cs = some (w, r)) : r.length < cs.length := by
  unfold pWord at h
  split at h
  · exact absurd h (by simp)
  next c l heq =>
    injection h with h
    have h2 : w = ⟨c :: l⟩ ∧ r = (skipWs cs).dropWhile Char.isAlphanum := by
      constructor
      · exact congrArg Prod.fst h |>.symm
      · exact congrArg Prod.snd h |>.symm
    have htd : (skipWs cs).takeWhile Char.isAlphanum ++ (skipWs cs).dropWhile Char.isAlphanum
        = skipWs cs := List.takeWhile_append_dropWhile _ _
    have hlen : (skipWs cs).length ≤ cs.length := skipWs_length_le cs
    have : ((skipWs cs).takeWhile Char.isAlphanum).length
        + ((skipWs cs).dropWhile Char.isAlphanum).length = (skipWs cs).length := by
      rw [← List.length_append, htd]
    rw [h2.2]
    rw [heq] at this
    simp at this
    omega

theorem mem_takeWhile {p : Char → Bool} :
    ∀ {l : List Char} {a : Char}, a ∈ l.takeWhile p → p a = true := by
  intro l
  induction l with
  | nil => intro a h; simp [List.takeWhile] at h
  | cons c cs ih =>
    intro a h
    unfold List.takeWhile at h
    split at h
    next hp =>
      rcases List.mem_cons.mp h with rfl | h2
      · exact hp
      · exact ih h2
    · simp at h

/-- A nonempty all-alphanumeric character list: the shape of every plain token
produced by `Word(alphanums)` or a keyword match. -/
abbrev WordChars (l : List Char) : Prop := l ≠ [] ∧ ∀ c ∈ l, c.isAlphanum = true

theorem pWord_word {cs w r} (h : pWord cs = some (w, r)) : WordChars w.data := by
  unfold pWord at h
  split at h
  · exact absurd h (by simp)
  next c l heq =>
    injection h with h
    have hw : w = ⟨c :: l⟩ := congrArg Prod.fst h |>.symm
    subst hw
    constructor
    · simp
    · intro x hx
      apply mem_takeWhile (p := Char.isAlphanum)
      rw [heq]
      exact hx

/-- The five reserved channel names (`ActionParser._channel`), in `MatchFirst` order. -/
def channelKeywords : List String := ["bass", "drums", "piano", "other", "vocals"]

/-- The eight reserved action keywords (`ActionParser._action`), in `MatchFirst` order. -/
def actionKeywords : List String :=
  ["early", "flat", "halfflat", "halfsharp", "late", "octavedown", "octaveup", "sharp"]

/-- pyparsing `MatchFirst` over a list of `Keyword`s: first alternative wins. -/
def pKeywords : List String → List Char → Option (String × List Char)
  | [], _ => none
  | k :: ks, cs =>
    match pKeyword k.data cs with
    | some r => some (k, r)
    | none => pKeywords ks cs

theorem pKeywords_le {kws : List String} {cs : List Char} {k r}
    (h : pKeywords kws cs = some (k, r)) : r.length ≤ cs.length := by
  induction kws with
  | nil => exact absurd h (by simp [pKeywords])
  | cons x xs ih =>
    unfold pKeywords at h
    split at h
    next heq =>
      injection h with h
      have h1 : r = _ := congrArg Prod.snd h |>.symm
      subst h1
      exact pKeyword_le heq
    · exact ih h

theorem pKeywords_mem {kws : List String} {cs : List Char} {k r}
    (h : pKeywords kws cs = some (k, r)) : k ∈ kws := by
  induction kws with
  | nil => exact absurd h (by simp [pKeywords])
  | cons x xs ih =>
    unfold pKeywords at h
    split at h
    · injection h with h
      have h1 : k = x := congrArg Prod.fst h |>.symm
      simp [h1]
    · exact List.mem_cons_of_mem _ (ih h)

/-- `ActionParser._channel`. -/
def pChannel : List Char → Option (String × List Char) := pKeywords channelKeywords

/-- `ActionParser._entity = Word(alphanums)`; also `._var`. -/
def pEntity : List Char → Option (String × List Char) := pWord

/-- `ActionParser._source = _channel | _entity`. -/
def pSource (cs : List Char) : Option (String × List Char) :=
  match pChannel cs with
  | some r => some r
  | none => pEntity cs

/-- `ActionParser._action`. -/
def pAction : List Char → Option (String × List Char) := pKeywords actionKeywords

def connectorChars : List Char := ['-', '>']

/-- `ActionParser._connector = Literal("->")`. -/
def pConnector (cs : List Char) : Option (List Char) := pLit connectorChars cs

/-- `ActionParser._eol = Literal(";")`. -/
def pEol (cs : List Char) : Option (List Char) := pLit [';'] cs

def dropChars : List Char := ['d', 'r', 'o', 'p']

/-- `ActionParser._drop = Keyword("drop")`. -/
def pDrop (cs : List Char) : Option (List Char) := pKeyword dropChars cs

/-- One element of a pyparsing `ParseResults` list for this grammar: either a
plain token string, or a grouped token (the `save(` name `)` group). -/
inductive Item where
  | tok : String → Item
  | grp : List String → Item
deriving DecidableEq, Repr

def saveLitChars : List Char := ['s', 'a', 'v', 'e', '(']

/-- `ActionParser._save = Group(Literal("save(") + _entity + Literal(")"))`. -/
def pSave (cs : List Char) : Option (Item × List Char) :=
  match pLit saveLitChars cs with
  | none => none
  | some cs1 =>
    match pEntity cs1 with
    | none => none
    | some (n, cs2) =>
      match pLit [')'] cs2 with
      | none => none
      | some cs3 => some (.grp ["save(", n, ")"], cs3)

/-- `ActionParser._sink = _drop | _save | _var`. -/
def pSink (cs : List Char) : Option (Item × List Char) :=
  match pDrop cs with
  | some r => some (.tok "drop", r)
  | none =>
    match pSave cs with
    | some ir => some ir
    | none =>
      match pEntity cs with
      | some (w, r) => some (.tok w, r)
      | none => none

theorem pSource_le {cs k r} (h : pSource cs = some (k, r)) : r.length ≤ cs.length := by
  unfold pSource at h
  split at h
  next heq =>
    injection h with h; subst h
    exact pKeywords_le heq
  · exact Nat.le_of_lt (pWord_lt h)

theorem pSave_le {cs it r} (h : pSave cs = some (it, r)) : r.length ≤ cs.length := by
  unfold pSave at h
  split at h
  · exact absurd h (by simp)
  next cs1 h1 =>
    split at h
    · exact absurd h (by simp)
    next n cs2 h2 =>
      split at h
      · exact absurd h (by simp)
      next cs3 h3 =>
        injection h with h
        have hr : r = cs3 := congrArg Prod.snd h |>.symm
        subst hr
        exact Nat.le_trans (pLit_le h3) (Nat.le_trans (Nat.le_of_lt (pWord_lt h2)) (pLit_le h1))

theorem pSink_le {cs it r} (h : pSink cs = some (it, r)) : r.length ≤ cs.length := by
  unfold pSink at h
  split at h
  next heq =>
    injection h with h
    have hr : r = _ := congrArg Prod.snd h |>.symm
    subst hr
    exact pKeyword_le heq
  · split at h
    next heq =>
      rw [h] at heq
      exact pSave_le heq
    · split at h
      next heq =>
        injection h with h
        have hr : r = _ := congrArg Prod.snd h |>.symm
        subst hr
        exact Nat.le_of_lt (pWord_lt heq)
      · exact absurd h (by simp)

/-- `(self._action + self._connector)[0, ...]` — pyparsing's greedy `ZeroOrMore`:
each iteration must match an action and then a connector; a failed iteration
consumes nothing and stops the loop. -/
def pActions (cs : List Char) : List String × List Char :=
  match h1 : pAction cs with
  | none => ([], cs)
  | some (a, cs1) =>
    match h2 : pConnector cs1 with
    | none => ([], cs)
    | some cs2 =>
      match pActions cs2 with
      | (acts, r) => (a :: acts, r)
termination_by cs.length
decreasing_by
  have hle : cs1.length ≤ cs.length := pKeywords_le h1
  have hlt : cs2.length < cs1.length := pLit_lt (by decide) h2
  omega

theorem pActions_none {cs : List Char} (h1 : pAction cs = none) : pActions cs = ([], cs) := by
  rw [pActions]
  split
  · rfl
  next a cs1 heq =>
    simp [h1] at heq

theorem pActions_noConn {cs cs1 : List Char} {a : String} (h1 : pAction cs = some (a, cs1))
    (h2 : pConnector cs1 = none) : pActions cs = ([], cs) := by
  rw [pActions]
  split
  next heq =>
    simp [h1] at heq
  next a' cs1' heq =>
    rw [h1] at heq
    injection heq with heq
    injection heq with ha hcs
    subst ha
    subst hcs
    split
    · rfl
    next cs2 heq2 =>
      simp [h2] at heq2

theorem pActions_cons {cs cs1 cs2 : List Char} {a : String} (h1 : pAction cs = some (a, cs1))
    (h2 : pConnector cs1 = some cs2) :
    pActions cs = (a :: (pActions cs2).1, (pActions cs2).2) := by
  rw [pActions]
  split
  next heq =>
    simp [h1] at heq
  next a' cs1' heq =>
    rw [h1] at heq
    injection heq with heq
    injection heq with ha hcs
    subst ha
    subst hcs
    split
    next heq2 =>
      simp [h2] at heq2
    next cs2' heq2 =>
      rw [h2] at heq2
      injection heq2 with heq2
      subst heq2
      rfl

theorem pActions_le (cs : List Char) : (pActions cs).2.length ≤ cs.length := by
  induction cs using pActions.induct with
  | case1 cs h1 => rw [pActions_none h1]
  | case2 cs a cs1 h1 h2 => rw [pActions_noConn h1 h2]
  | case3 cs a cs1 h1 cs2 h2 acts r hrec ih =>
    rw [pActions_cons h1 h2]
    dsimp only
    have hle : cs1.length ≤ cs.length := pKeywords_le h1
    have hlt : cs2.length < cs1.length := pLit_lt (by decide) h2
    omega

theorem pActions_mem (cs : List Char) : ∀ a ∈ (pActions cs).1, a ∈ actionKeywords := by
  induction cs using pActions.induct with
  | case1 cs h1 => rw [pActions_none h1]; simp
  | case2 cs a cs1 h1 h2 => rw [pActions_noConn h1 h2]; simp
  | case3 cs a cs1 h1 cs2 h2 acts r hrec ih =>
    rw [pActions_cons h1 h2]
    dsimp only
    intro x hx
    rcases List.mem_cons.mp hx with rfl | hx2
    · exact pKeywords_mem h1
    · exact ih x hx2

/-- The flat token list of one expression group, as `ParseResults.asList()`
renders it: source token, connector token, action/connector pairs, sink item. -/
def interleave : List String → List Item
  | [] => []
  | a :: as => Item.tok a :: Item.tok "->" :: interleave as

/-- `ActionParser._expression = Group(_source + _connector + (_action + _connector)[0, ...] + _sink)`. -/
def pExpression (cs : List Char) : Option (List Item × List Char) :=
  match pSource cs with
  | none => none
  | some (src, cs1) =>
    match pConnector cs1 with
    | none => none
    | some cs2 =>
      match pActions cs2 with
      | (acts, cs3) =>
        match pSink cs3 with
        | none => none
        | some (sinkItem, cs4) =>
          some (Item.tok src :: Item.tok "->" :: (interleave acts ++ [sinkItem]), cs4)

theorem pExpression_le {cs e r} (h : pExpression cs = some (e, r)) : r.length ≤ cs.length := by
  unfold pExpression at h
  split at h
  · exact absurd h (by simp)
  next src cs1 h1 =>
    split at h
    · exact absurd h (by simp)
    next cs2 h2 =>
      split at h
      next acts cs3 h3 =>
        split at h
        · exact absurd h (by simp)
        next sinkItem cs4 h4 =>
          injection h with h
          have hr : r = cs4 := congrArg Prod.snd h |>.symm
          subst hr
          have e3 : cs3.length ≤ cs2.length := by
            have := pActions_le cs2
            rw [h3] at this
            exact this
          exact Nat.le_trans (pSink_le h4)
            (Nat.le_trans e3 (Nat.le_trans (pLit_le h2) (pSource_le h1)))

/-- One element of the top-level `ParseResults` list: an expression group or a
`";"` terminator token. -/
inductive TopItem where
  | semi : TopItem
  | expr : List Item → TopItem
deriving DecidableEq, Repr

/-- `(self._eol + self._expression)[0, ...]` — greedy `ZeroOrMore` of
terminator-plus-expression; a failed iteration consumes nothing. -/
def pMoreExprs (cs : List Char) : List TopItem × List Char :=
  match h1 : pEol cs with
  | none => ([], cs)
  | some cs1 =>
    match h2 : pExpression cs1 with
    | none => ([], cs)
    | some (e, cs2) =>
      match pMoreExprs cs2 with
      | (ts, r) => (TopItem.semi :: TopItem.expr e :: ts, r)
termination_by cs.length
decreasing_by
  have hlt : cs1.length < cs.length := pLit_lt (by decide) h1
  have hle : cs2.length ≤ cs1.length := pExpression_le h2
  omega

/-- `ActionParser._pipelines.parseString(program, parseAll=True)`:
`_expression + (_eol + _expression)[0, ...] + _eol[0, 1]`, which must consume
the whole input (up to trailing whitespace).  `none` models `pp.ParseException`. -/
def pProgram (program : String) : Option (List TopItem) :=
  match pExpression program.data with
  | none => none
  | some (e1, cs1) =>
    match pMoreExprs cs1 with
    | (ts, cs2) =>
      match pEol cs2 with
      | some cs3 =>
        if skipWs cs3 = [] then some (TopItem.expr e1 :: (ts ++ [TopItem.semi])) else none
      | none =>
        if skipWs cs2 = [] then some (TopItem.expr e1 :: ts) else none

/-!
Token classifier (`ActionParser._matches_parser_element` and the `_is_*`
methods): re-parse the token's own text with the relevant grammar fragment,
`parseString` without `parseAll`, so a prefix match suffices.
-/

/-- `ActionParser._is_action`. -/
def isActionTok (t : String) : Bool := (pAction t.data).isSome

/-- `ActionParser._is_connector`. -/
def isConnectorTok (t : String) : Bool := (pConnector t.data).isSome

/-- `ActionParser._is_source`. -/
def isSourceTok (t : String) : Bool := (pSource t.data).isSome

/-- `ActionParser._is_sink`. -/
def isSinkTok (t : String) : Bool := (pSink t.data).isSome

/-- `ActionParser._is_save`. -/
def isSaveTok (t : String) : Bool := (pSave t.data).isSome

/-- `ActionParser._is_drop`. -/
def isDropTok (t : String) : Bool := (pDrop t.data).isSome

/-- `models.py Track`.  The numpy sample buffer is modelled as a `List Int` of
opaque sample values; its contents are never interpreted by the core. -/
structure Track where
  audio : List Int
  num_channels : Nat
  sample_rate : Nat
  save : Bool
deriving DecidableEq, Repr

/-- `Track.clone`: deep copy of the buffer (`np.copy` — in the pure model the
same buffer value), same channel count and sample rate, save flag reset to
`false`. -/
def Track.clone (t : Track) : Track :=
  { audio := t.audio, num_channels := t.num_channels, sample_rate := t.sample_rate, save := false }

/-- Modelled from the spec: `librosa.effects.pitch_shift` is an external
collaborator ("the numerical pitch-shift ... algorithms themselves" are out of
scope, "treated as opaque, named, pure track transforms").  It is modelled as
a pure sample-buffer transform parameterized like the real call; the concrete
arithmetic is irrelevant to every claim. -/
def pitch_shift (audio : List Int) (sample_rate : Nat) (n_steps : Int)
    (bins_per_octave : Int) : List Int :=
  audio.map fun x => x * bins_per_octave + n_steps + sample_rate

/-- `np.roll`: rotate the buffer right by `steps` (negative rolls left),
wrapping around. -/
def npRoll (audio : List Int) (steps : Int) : List Int :=
  if audio.length = 0 then audio
  else
    let k := (((steps % (audio.length : Int)) + audio.length) % (audio.length : Int)).toNat
    audio.drop (audio.length - k) ++ audio.take (audio.length - k)

namespace Brownifier

/-- `Brownifier._is_stereo`. -/
def is_stereo (track : Track) : Bool := track.num_channels == 2

/-- `Brownifier.change_pitch`: in the source the stereo branch pitch-shifts
each of the two channel columns and the mono branch shifts the whole buffer;
in the flat buffer model both shift every sample. -/
def change_pitch (track : Track) (n_steps : Int) (bins_per_octave : Int := 12) : Track :=
  if is_stereo track then
    { track with audio := pitch_shift track.audio track.sample_rate n_steps bins_per_octave }
  else
    { track with audio := pitch_shift track.audio track.sample_rate n_steps bins_per_octave }

def flat (track : Track) : Track := change_pitch track (-1)

def sharp (track : Track) : Track := change_pitch track 1

def half_flat (track : Track) : Track := change_pitch track (-1) 24

def half_sharp (track : Track) : Track := change_pitch track 1 24

def octave_up (track : Track) : Track := change_pitch track 12

def octave_down (track : Track) : Track := change_pitch track (-12)

def time_shift (track : Track) (steps : Int) : Track :=
  { track with audio := npRoll track.audio steps }

def early (track : Track) : Track := time_shift track (-1500)

def late (track : Track) : Track := { track with audio := npRoll track.audio 1500 }

end Brownifier

/-- `models.py Pipeline`: source name, ordered transforms, sink name, save flag. -/
structure Pipeline where
  source : String
  actions : List (Track → Track)
  sink : String
  save : Bool

/-- `ActionParser._fn_map`: dictionary from action keyword to transform;
`none` models a Python `KeyError` for a missing key. -/
def fnMap (s : String) : Option (Track → Track) :=
  if s = "early" then some Brownifier.early
  else if s = "flat" then some Brownifier.flat
  else if s = "halfflat" then some Brownifier.half_flat
  else if s = "halfsharp" then some Brownifier.half_sharp
  else if s = "late" then some Brownifier.late
  else if s = "octavedown" then some Brownifier.octave_down
  else if s = "octaveup" then some Brownifier.octave_up
  else if s = "sharp" then some Brownifier.sharp
  else none

/-- The distinct error conditions `ActionParser._convert_into_pipeline` can
raise.  `invalidSource` and `missingSink` are the two `UnexpectedTokenTypeError`
raise sites (distinguished by their messages); `badSaveDecl` and `notInGrammar`
are the two `TokenNotInGrammarError` raise sites; `fnMapKey` models the
uncaught `KeyError`/`TypeError` of `self._fn_map[item]` on a key outside the
dictionary (unreachable from grammar output). -/
inductive CompileError where
  | invalidSource (first : Item)
  | fnMapKey (item : Item)
  | badSaveDecl (token : String)
  | notInGrammar (token : String)
  | missingSink (expression : List Item)

/-- The token text the classifier sees: a plain token is itself, a grouped
token is `"".join(item)`. -/
def itemText : Item → String
  | .tok s => s
  | .grp l => String.join l

/-- The token walk of `ActionParser._convert_into_pipeline` over
`expression[1:]`, carrying the accumulated actions, resolved sink and save
flag.  `e0` is the whole expression (used in the missing-sink message). -/
def convertLoop (source : String) (e0 : List Item) :
    List Item → List (Track → Track) → Option String → Bool →
      Except CompileError (Option Pipeline)
  | [], actions, sink, save =>
    match sink with
    | some s => .ok (some ⟨source, actions, s, save⟩)
    | none => .error (.missingSink e0)
  | item :: rest, actions, sink, save =>
    let token := itemText item
    if isActionTok token then
      match item with
      | .tok s =>
        match fnMap s with
        | some f => convertLoop source e0 rest (actions ++ [f]) sink save
        | none => .error (.fnMapKey item)
      | .grp _ => .error (.fnMapKey item)
    else if isSinkTok token then
      if isDropTok token then .ok none
      else if isSaveTok token then
        match item with
        | .tok s =>
          match (s.data.drop 1).dropLast with
          | [c] => convertLoop source e0 rest actions (some ⟨[c]⟩) true
          | _ => .error (.badSaveDecl token)
        | .grp l =>
          match (l.drop 1).dropLast with
          | [x] => convertLoop source e0 rest actions (some x) true
          | _ => .error (.badSaveDecl token)
      else convertLoop source e0 rest actions (some token) save
    else if isConnectorTok token then convertLoop source e0 rest actions sink save
    else .error (.notInGrammar token)

/-- `ActionParser._convert_into_pipeline`: `.ok none` is the dropped /
empty-expression outcome, `.error` a raised exception. -/
def convertIntoPipeline (e : List Item) : Except CompileError (Option Pipeline) :=
  match e with
  | [] => .ok none
  | first :: rest =>
    match first with
    | .grp _ => .error (.invalidSource first)
    | .tok s =>
      if isSourceTok s then convertLoop s e rest [] none false
      else .error (.invalidSource first)

/-- `ActionParser._split_into_expressions`: keep the expression groups, drop
the `";"` tokens. -/
def splitIntoExpressions (top : List TopItem) : List (List Item) :=
  top.filterMap fun t =>
    match t with
    | .semi => none
    | .expr e => some e

/-- The compilation loop of `ActionParser.get_pipelines`: convert each
expression in order, keep the materialized pipelines, propagate the first
raised error. -/
def compileExprs : List (List Item) → Except CompileError (List Pipeline)
  | [] => .ok []
  | e :: es =>
    match convertIntoPipeline e with
    | .error err => .error err
    | .ok none => compileExprs es
    | .ok (some p) =>
      match compileExprs es with
      | .error err => .error err
      | .ok ps => .ok (p :: ps)

/-- The error conditions `ActionParser.get_pipelines` can surface:
`parse` is a `pp.ParseException` from the grammar stage, `sem` a
`BrownifyError` raised during semantic conversion. -/
inductive RecipeError where
  | parse
  | sem (e : CompileError)

/-- `ActionParser.get_pipelines`. -/
def getPipelines (program : String) : Except RecipeError (List Pipeline) :=
  match pProgram program with
  | none => .error .parse
  | some top =>
    match compileExprs (splitIntoExpressions top) with
    | .error e => .error (.sem e)
    | .ok ps => .ok ps

/-!  The executor: `runners.py PipelineProcessor._process`. -/

/-- The processor's `self.tracks` dictionary. -/
def TrackStore : Type := String → Option Track

structure NoPipelineSourceError where
  source : String
  pipeline : Pipeline

/-- Apply the pipeline's actions left to right (`for action in pipeline.actions`). -/
def applyActions (actions : List (Track → Track)) (t : Track) : Track :=
  actions.foldl (fun tr a => a tr) t

/-- Dictionary assignment `self.tracks[sink] = ...` (overwrite-or-insert). -/
def updateStore (s : TrackStore) (k : String) (v : Track) : TrackStore :=
  fun n => if n = k then some v else s n

/-- The `Track(...)` constructed for the sink entry: the processed clone's
buffer, channel count and sample rate, with the pipeline's save flag. -/
def mkSinkTrack (t : Track) (save : Bool) : Track :=
  { audio := t.audio, num_channels := t.num_channels, sample_rate := t.sample_rate, save := save }

namespace PipelineProcessor

/-- One iteration of the `for pipeline in pipelines` loop in `_process`:
look up the source (absence raises `NoPipelineSourceError` naming the source
and the pipeline), clone it, apply the actions, write the sink entry. -/
def processOne (tracks : TrackStore) (p : Pipeline) :
    Except NoPipelineSourceError TrackStore :=
  match tracks p.source with
  | none => .error ⟨p.source, p⟩
  | some src =>
    .ok (updateStore tracks p.sink (mkSinkTrack (applyActions p.actions src.clone) p.save))

/-- `_process` over the whole pipeline list.  The pair holds the store as it
stands when the loop finishes or raises (Python mutates `self.tracks` in
place, so the partial store survives an exception), and the raised error if
any. -/
def processAll (tracks : TrackStore) :
    List Pipeline → TrackStore × Option NoPipelineSourceError
  | [] => (tracks, none)
  | p :: ps =>
    match processOne tracks p with
    | .ok s' => processAll s' ps
    | .error e => (tracks, some e)

/-- `_process` as its caller sees it: the final store, or the propagated
exception (in which case `_save`/`_merge` never run — no partial output). -/
def process (tracks : TrackStore) (ps : List Pipeline) :
    Except NoPipelineSourceError TrackStore :=
  match processAll tracks ps with
  | (s, none) => .ok s
  | (_, some e) => .error e

end PipelineProcessor

/-!  Classifier facts about the token shapes the grammar can emit. -/

theorem skipWs_of_wordChars {l : List Char} (h : WordChars l) : skipWs l = l := by
  rcases h with ⟨hne, hall⟩
  cases l with
  | nil => exact absurd rfl hne
  | cons c cs => exact skipWs_cons_of_alnum (hall c (List.mem_cons_self c cs))

theorem takeWhile_eq_self_of_all {p : Char → Bool} {l : List Char}
    (h : ∀ c ∈ l, p c = true) : l.takeWhile p = l := by
  induction l with
  | nil => rfl
  | cons c cs ih =>
    unfold List.takeWhile
    rw [h c (List.mem_cons_self c cs)]
    simp only [ih fun x hx => h x (List.mem_cons_of_mem c hx)]

theorem takeWhile_append_of_all {p : Char → Bool} {l r : List Char}
    (h : ∀ c ∈ l, p c = true) : (l ++ r).takeWhile p = l ++ r.takeWhile p := by
  induction l with
  | nil => simp
  | cons c cs ih =>
    simp only [List.cons_append, List.takeWhile]
    rw [h c (List.mem_cons_self c cs)]
    exact congrArg (c :: ·) (ih fun x hx => h x (List.mem_cons_of_mem c hx))

theorem dropWhile_append_of_all {p : Char → Bool} {l r : List Char}
    (h : ∀ c ∈ l, p c = true) : (l ++ r).dropWhile p = r.dropWhile p := by
  induction l with
  | nil => simp
  | cons c cs ih =>
    simp only [List.cons_append, List.dropWhile]
    rw [h c (List.mem_cons_self c cs)]
    exact ih fun x hx => h x (List.mem_cons_of_mem c hx)

theorem pWord_isSome_of_wordChars {s : String} (h : WordChars s.data) :
    (pWord s.data).isSome = true := by
  rcases h with ⟨hne, hall⟩
  unfold pWord
  rw [skipWs_of_wordChars ⟨hne, hall⟩, takeWhile_eq_self_of_all hall]
  cases hd : s.data with
  | nil => exact absurd hd hne
  | cons c cs => simp

/-- A keyword whose characters are all alphanumeric prefix-matches an
all-alphanumeric token exactly when the token equals the keyword. -/
theorem pKeyword_wordChars_iff {kw : List Char} {s : String}
    (hkw : WordChars kw) (hs : WordChars s.data) :
    ((pKeyword kw s.data).isSome = true) ↔ s.data = kw := by
  unfold pKeyword
  rw [skipWs_of_wordChars hs]
  constructor
  · intro h
    split at h
    next hpre =>
      rcases isPrefixOf_iff.mp hpre with ⟨r, hr⟩
      cases hrest : r with
      | nil => rw [hr, hrest]; simp
      | cons c cr =>
        exfalso
        have hdrop : s.data.drop kw.length = r := by
          rw [hr]
          exact List.drop_left kw r
        rw [hdrop, hrest] at h
        have hcmem : c ∈ s.data := by
          rw [hr, hrest]
          exact List.mem_append_right _ (List.mem_cons_self c cr)
        have hca : c.isAlphanum = true := hs.2 c hcmem
        have hident : isIdentChar c = true := by
          unfold isIdentChar
          rw [hca]
          simp
        simp [hident] at h
    · simp at h
  · intro h
    subst h
    have hpre : List.isPrefixOf s.data s.data = true := isPrefixOf_iff.mpr ⟨[], by simp⟩
    rw [hpre]
    have hnone : s.data[s.length]? = none := by
      apply List.getElem?_eq_none
      exact Nat.le_refl _
    simp [List.drop_length, hnone]

theorem pKeywords_wordChars_iff {kws : List String} {s : String}
    (hkws : ∀ k ∈ kws, WordChars k.data) (hs : WordChars s.data) :
    ((pKeywords kws s.data).isSome = true) ↔ s ∈ kws := by
  induction kws with
  | nil => simp [pKeywords]
  | cons k ks ih =>
    unfold pKeywords
    cases hk : pKeyword k.data s.data with
    | some r =>
      have : s.data = k.data :=
        (pKeyword_wordChars_iff (hkws k (List.mem_cons_self k ks)) hs).mp (by rw [hk]; rfl)
      have hsk : s = k := String.ext this
      simp [hsk]
    | none =>
      have hne : ¬ s.data = k.data := by
        intro hcontra
        have := (pKeyword_wordChars_iff (hkws k (List.mem_cons_self k ks)) hs).mpr hcontra
        rw [hk] at this
        simp at this
      have hnsk : s ≠ k := fun hcontra => hne (by rw [hcontra])
      rw [ih fun x hx => hkws x (List.mem_cons_of_mem k hx)]
      simp [hnsk]

theorem actionKeywords_wordChars : ∀ k ∈ actionKeywords, WordChars k.data := by decide

theorem channelKeywords_wordChars : ∀ k ∈ channelKeywords, WordChars k.data := by decide

theorem isActionTok_wordChars_iff {s : String} (hs : WordChars s.data) :
    isActionTok s = true ↔ s ∈ actionKeywords := by
  unfold isActionTok pAction
  exact pKeywords_wordChars_iff actionKeywords_wordChars hs

theorem isDropTok_wordChars_iff {s : String} (hs : WordChars s.data) :
    isDropTok s = true ↔ s = "drop" := by
  unfold isDropTok pDrop
  rw [pKeyword_wordChars_iff (by decide) hs]
  constructor
  · intro h
    exact String.ext (by rw [h]; rfl)
  · intro h
    rw [h]
    rfl

theorem isSourceTok_of_wordChars {s : String} (hs : WordChars s.data) :
    isSourceTok s = true := by
  unfold isSourceTok pSource
  cases hc : pChannel s.data with
  | some r => rfl
  | none => exact pWord_isSome_of_wordChars hs

/-- A literal containing a non-alphanumeric character never prefix-matches an
all-alphanumeric token. -/
theorem pLit_none_of_wordChars {lit : List Char} {s : String} {c : Char}
    (hc : c ∈ lit) (hna : c.isAlphanum = false) (hs : WordChars s.data) :
    pLit lit s.data = none := by
  unfold pLit
  rw [skipWs_of_wordChars hs]
  cases hpre : lit.isPrefixOf s.data with
  | false => simp
  | true =>
    exfalso
    rcases isPrefixOf_iff.mp hpre with ⟨r, hr⟩
    have : c ∈ s.data := by
      rw [hr]
      exact List.mem_append_left _ hc
    rw [hs.2 c this] at hna
    exact Bool.noConfusion hna

theorem isSaveTok_of_wordChars {s : String} (hs : WordChars s.data) :
    isSaveTok s = false := by
  unfold isSaveTok pSave
  rw [pLit_none_of_wordChars (c := '(') (by decide) (by decide) hs]
  rfl

theorem isConnectorTok_of_wordChars {s : String} (hs : WordChars s.data) :
    isConnectorTok s = false := by
  unfold isConnectorTok pConnector
  rw [pLit_none_of_wordChars (c := '-') (by decide) (by decide) hs]
  rfl

theorem isSinkTok_of_wordChars {s : String} (hs : WordChars s.data) :
    isSinkTok s = true := by
  unfold isSinkTok pSink
  cases hd : pDrop s.data with
  | some r => rfl
  | none =>
    cases hsv : pSave s.data with
    | some ir => rfl
    | none =>
      have hw := pWord_isSome_of_wordChars hs
      unfold pEntity
      cases hwd : pWord s.data with
      | some wr => rfl
      | none => rw [hwd] at hw; exact Bool.noConfusion hw

/-!  Facts about the joined text of a `save(` name `)` group. -/

theorem itemText_grp_save (n : String) :
    (itemText (Item.grp ["save(", n, ")"])).data
      = 's' :: 'a' :: 'v' :: 'e' :: '(' :: (n.data ++ [')']) := by
  simp [itemText, String.join, String.data_append]

theorem pKeyword_some_prefix {kw cs r : List Char} (h : pKeyword kw cs = some r) :
    kw.isPrefixOf (skipWs cs) = true := by
  unfold pKeyword at h
  split at h
  next hp => exact hp
  · exact absurd h (by simp)

theorem pKeywords_isSome_exists {kws : List String} {cs : List Char}
    (h : (pKeywords kws cs).isSome = true) :
    ∃ k ∈ kws, (pKeyword k.data cs).isSome = true := by
  induction kws with
  | nil => simp [pKeywords] at h
  | cons k ks ih =>
    unfold pKeywords at h
    cases hk : pKeyword k.data cs with
    | some r => exact ⟨k, List.mem_cons_self k ks, by rw [hk]; rfl⟩
    | none =>
      simp only [hk] at h
      rcases ih h with ⟨k2, hk2, hsome⟩
      exact ⟨k2, List.mem_cons_of_mem k hk2, hsome⟩

theorem isActionTok_grp_save (n : String) :
    isActionTok (itemText (Item.grp ["save(", n, ")"])) = false := by
  cases hb : isActionTok (itemText (Item.grp ["save(", n, ")"])) with
  | false => rfl
  | true =>
    exfalso
    unfold isActionTok pAction at hb
    rcases pKeywords_isSome_exists hb with ⟨k, hk, hsome⟩
    rcases Option.isSome_iff_exists.mp hsome with ⟨r, hr⟩
    have hpre := pKeyword_some_prefix hr
    rw [itemText_grp_save, skipWs_cons_of_alnum (by decide)] at hpre
    rcases isPrefixOf_iff.mp hpre with ⟨r2, heq⟩
    simp only [actionKeywords, List.mem_cons, List.not_mem_nil, or_false] at hk
    rcases hk with rfl | rfl | rfl | rfl | rfl | rfl | rfl | rfl <;> simp at heq

theorem pDrop_grp_save (n : String) :
    pDrop (itemText (Item.grp ["save(", n, ")"])).data = none := by
  cases hb : pDrop (itemText (Item.grp ["save(", n, ")"])).data with
  | none => rfl
  | some r =>
    exfalso
    have hpre := pKeyword_some_prefix hb
    rw [itemText_grp_save, skipWs_cons_of_alnum (by decide)] at hpre
    rcases isPrefixOf_iff.mp hpre with ⟨r2, heq⟩
    simp [dropChars] at heq

theorem pWord_word_append {n : String} (hn : WordChars n.data) :
    pWord (n.data ++ [')']) = some (n, [')']) := by
  unfold pWord
  have hskip : skipWs (n.data ++ [')']) = n.data ++ [')'] := by
    rcases hn with ⟨hne, hall⟩
    cases hd : n.data with
    | nil => exact absurd hd hne
    | cons c cs =>
      exact skipWs_cons_of_alnum (hall c (by rw [hd]; exact List.mem_cons_self c cs))
  rw [hskip, takeWhile_append_of_all hn.2, dropWhile_append_of_all hn.2]
  have ht : List.takeWhile Char.isAlphanum [')'] = [] := by decide
  have hdw : List.dropWhile Char.isAlphanum [')'] = [')'] := by decide
  rw [ht, hdw, List.append_nil]
  rcases hn with ⟨hne, _⟩
  cases hd : n.data with
  | nil => exact absurd hd hne
  | cons c cs =>
    have hns : (⟨c :: cs⟩ : String) = n := String.ext (by rw [hd])
    dsimp only
    rw [hns]

theorem pSave_grp_save {n : String} (hn : WordChars n.data) :
    pSave (itemText (Item.grp ["save(", n, ")"])).data = some (Item.grp ["save(", n, ")"], []) := by
  have h1 : pLit saveLitChars (itemText (Item.grp ["save(", n, ")"])).data
      = some (n.data ++ [')']) := by
    unfold pLit
    rw [itemText_grp_save, skipWs_cons_of_alnum (by decide)]
    have hpre : saveLitChars.isPrefixOf
        ('s' :: 'a' :: 'v' :: 'e' :: '(' :: (n.data ++ [')'])) = true :=
      isPrefixOf_iff.mpr ⟨n.data ++ [')'], rfl⟩
    rw [hpre]
    simp [saveLitChars]
  have h2 : pEntity (n.data ++ [')']) = some (n, [')']) := pWord_word_append hn
  have h3 : pLit [')'] [')'] = some [] := by decide
  unfold pSave
  simp only [h1, h2, h3]

theorem isSaveTok_grp_save {n : String} (hn : WordChars n.data) :
    isSaveTok (itemText (Item.grp ["save(", n, ")"])) = true := by
  unfold isSaveTok
  rw [pSave_grp_save hn]
  rfl

theorem isSinkTok_grp_save {n : String} (hn : WordChars n.data) :
    isSinkTok (itemText (Item.grp ["save(", n, ")"])) = true := by
  unfold isSinkTok pSink
  rw [pDrop_grp_save n, pSave_grp_save hn]
  rfl

theorem isDropTok_grp_save (n : String) :
    isDropTok (itemText (Item.grp ["save(", n, ")"])) = false := by
  unfold isDropTok
  rw [pDrop_grp_save n]
  rfl

/-!  The shape of every expression the grammar can emit. -/

/-- The three sink shapes `_sink = _drop | _save | _var` can produce. -/
inductive GoodSink : Item → Prop where
  | drop : GoodSink (Item.tok "drop")
  | save (n : String) : WordChars n.data → GoodSink (Item.grp ["save(", n, ")"])
  | var (v : String) : WordChars v.data → GoodSink (Item.tok v)

/-- The token-list shape of every expression group the grammar accepts:
a source word, a connector, action/connector pairs, and a sink item. -/
def GoodExpr (e : List Item) : Prop :=
  ∃ src acts sinkItem, WordChars src.data ∧ (∀ a ∈ acts, a ∈ actionKeywords) ∧
    GoodSink sinkItem ∧ e = Item.tok src :: Item.tok "->" :: (interleave acts ++ [sinkItem])

theorem pSource_word {cs : List Char} {w : String} {r : List Char}
    (h : pSource cs = some (w, r)) : WordChars w.data := by
  unfold pSource at h
  split at h
  next kr heq =>
    injection h with h
    subst h
    have hmem := pKeywords_mem (show pKeywords channelKeywords cs = some (w, r) from heq)
    simp only [channelKeywords, List.mem_cons, List.not_mem_nil, or_false] at hmem
    rcases hmem with rfl | rfl | rfl | rfl | rfl <;> decide
  · exact pWord_word h

theorem pSave_good {cs : List Char} {it : Item} {r : List Char}
    (h : pSave cs = some (it, r)) :
    ∃ n, WordChars n.data ∧ it = Item.grp ["save(", n, ")"] := by
  unfold pSave at h
  split at h
  · exact absurd h (by simp)
  next cs1 h1 =>
    split at h
    · exact absurd h (by simp)
    next n cs2 h2 =>
      split at h
      · exact absurd h (by simp)
      next cs3 h3 =>
        injection h with h
        have hit : it = Item.grp ["save(", n, ")"] := congrArg Prod.fst h |>.symm
        exact ⟨n, pWord_word h2, hit⟩

theorem pSink_good {cs : List Char} {it : Item} {r : List Char}
    (h : pSink cs = some (it, r)) : GoodSink it := by
  unfold pSink at h
  split at h
  · injection h with h
    have hit : it = Item.tok "drop" := congrArg Prod.fst h |>.symm
    rw [hit]
    exact GoodSink.drop
  · split at h
    next heq =>
      rw [h] at heq
      rcases pSave_good heq with ⟨n, hn, hit⟩
      rw [hit]
      exact GoodSink.save n hn
    · split at h
      next w r2 heq =>
        injection h with h
        have hit : it = Item.tok w := congrArg Prod.fst h |>.symm
        rw [hit]
        exact GoodSink.var w (pWord_word heq)
      · exact absurd h (by simp)

theorem pExpression_good {cs : List Char} {e : List Item} {r : List Char}
    (h : pExpression cs = some (e, r)) : GoodExpr e := by
  unfold pExpression at h
  split at h
  · exact absurd h (by simp)
  next src cs1 h1 =>
    split at h
    · exact absurd h (by simp)
    next cs2 h2 =>
      split at h
      next acts cs3 h3 =>
        split at h
        · exact absurd h (by simp)
        next sinkItem cs4 h4 =>
          injection h with h
          have he : e = Item.tok src :: Item.tok "->" :: (interleave acts ++ [sinkItem]) :=
            congrArg Prod.fst h |>.symm
          refine ⟨src, acts, sinkItem, pSource_word h1, ?_, pSink_good h4, he⟩
          intro a ha
          have := pActions_mem cs2
          rw [h3] at this
          exact this a ha

theorem pMoreExprs_none {cs : List Char} (h1 : pEol cs = none) : pMoreExprs cs = ([], cs) := by
  rw [pMoreExprs]
  split
  · rfl
  next cs1 heq =>
    simp [h1] at heq

theorem pMoreExprs_noExpr {cs cs1 : List Char} (h1 : pEol cs = some cs1)
    (h2 : pExpression cs1 = none) : pMoreExprs cs = ([], cs) := by
  rw [pMoreExprs]
  split
  next heq =>
    simp [h1] at heq
  next cs1' heq =>
    rw [h1] at heq
    injection heq with heq
    subst heq
    split
    · rfl
    next e cs2 heq2 =>
      simp [h2] at heq2

theorem pMoreExprs_cons {cs cs1 cs2 : List Char} {e : List Item} (h1 : pEol cs = some cs1)
    (h2 : pExpression cs1 = some (e, cs2)) :
    pMoreExprs cs
      = (TopItem.semi :: TopItem.expr e :: (pMoreExprs cs2).1, (pMoreExprs cs2).2) := by
  rw [pMoreExprs]
  split
  next heq =>
    simp [h1] at heq
  next cs1' heq =>
    rw [h1] at heq
    injection heq with heq
    subst heq
    split
    next heq2 =>
      simp [h2] at heq2
    next e' cs2' heq2 =>
      rw [h2] at heq2
      injection heq2 with heq2
      injection heq2 with he hcs
      subst he
      subst hcs
      rfl

theorem pMoreExprs_good (cs : List Char) :
    ∀ e, TopItem.expr e ∈ (pMoreExprs cs).1 → GoodExpr e := by
  induction cs using pMoreExprs.induct with
  | case1 cs h1 => rw [pMoreExprs_none h1]; simp
  | case2 cs cs1 h1 h2 => rw [pMoreExprs_noExpr h1 h2]; simp
  | case3 cs cs1 h1 e cs2 h2 ts r hrec ih =>
    rw [pMoreExprs_cons h1 h2]
    dsimp only
    intro e2 he2
    rcases List.mem_cons.mp he2 with hsemi | he2b
    · exact absurd hsemi (by simp)
    rcases List.mem_cons.mp he2b with hexpr | he2c
    · injection hexpr with hexpr
      subst hexpr
      exact pExpression_good h2
    · exact ih e2 he2c

/-- Every expression a successfully parsed program yields has the grammar's
expression shape. -/
theorem pProgram_good {program : String} {top : List TopItem}
    (h : pProgram program = some top) :
    ∀ e ∈ splitIntoExpressions top, GoodExpr e := by
  have hmem : ∀ e, TopItem.expr e ∈ top → GoodExpr e := by
    unfold pProgram at h
    split at h
    · exact absurd h (by simp)
    next e1 cs1 h1 =>
      split at h
      next ts cs2 hts =>
        have hts1 : ts = (pMoreExprs cs1).1 := by rw [hts]
        split at h
        · split at h
          · injection h with h
            subst h
            intro e he
            rcases List.mem_cons.mp he with hexpr | he2
            · injection hexpr with hexpr
              subst hexpr
              exact pExpression_good h1
            · rcases List.mem_append.mp he2 with he3 | he4
              · rw [hts1] at he3
                exact pMoreExprs_good cs1 e he3
              · simp at he4
          · exact absurd h (by simp)
        · split at h
          · injection h with h
            subst h
            intro e he
            rcases List.mem_cons.mp he with hexpr | he2
            · injection hexpr with hexpr
              subst hexpr
              exact pExpression_good h1
            · rw [hts1] at he2
              exact pMoreExprs_good cs1 e he2
          · exact absurd h (by simp)
  intro e he
  unfold splitIntoExpressions at he
  rcases List.mem_filterMap.mp he with ⟨t, ht, hft⟩
  cases t with
  | semi => exact absurd hft (by simp)
  | expr e2 =>
    have : e2 = e := by
      injection hft
    subst this
    exact hmem e2 ht

/-!  How the compiler walks each token shape. -/

theorem isActionTok_arrow : isActionTok "->" = false := by decide

theorem isSinkTok_arrow : isSinkTok "->" = false := by decide

theorem isConnectorTok_arrow : isConnectorTok "->" = true := by decide

theorem isActionTok_dropKw : isActionTok "drop" = false := by decide

theorem isSinkTok_dropKw : isSinkTok "drop" = true := by decide

theorem isDropTok_dropKw : isDropTok "drop" = true := by decide

/-- The transform `_fn_map` holds for an action keyword. -/
def fnOf (a : String) : Track → Track := (fnMap a).getD id

theorem fnMap_eq_fnOf {a : String} (ha : a ∈ actionKeywords) : fnMap a = some (fnOf a) := by
  simp only [actionKeywords, List.mem_cons, List.not_mem_nil, or_false] at ha
  rcases ha with rfl | rfl | rfl | rfl | rfl | rfl | rfl | rfl <;> rfl

theorem isActionTok_of_mem {a : String} (ha : a ∈ actionKeywords) : isActionTok a = true :=
  (isActionTok_wordChars_iff (actionKeywords_wordChars a ha)).mpr ha

theorem convertLoop_nil_some (source : String) (e0 : List Item) (A : List (Track → Track))
    (s : String) (save : Bool) :
    convertLoop source e0 [] A (some s) save = .ok (some ⟨source, A, s, save⟩) := rfl

theorem convertLoop_nil_none (source : String) (e0 : List Item) (A : List (Track → Track))
    (save : Bool) :
    convertLoop source e0 [] A none save = .error (.missingSink e0) := rfl

theorem convertLoop_action {source : String} {e0 : List Item} {a : String} {rest : List Item}
    {A : List (Track → Track)} {sink : Option String} {save : Bool} (ha : a ∈ actionKeywords) :
    convertLoop source e0 (Item.tok a :: rest) A sink save
      = convertLoop source e0 rest (A ++ [fnOf a]) sink save := by
  simp only [convertLoop, itemText, isActionTok_of_mem ha, fnMap_eq_fnOf ha, if_true]

theorem convertLoop_conn {source : String} {e0 : List Item} {rest : List Item}
    {A : List (Track → Track)} {sink : Option String} {save : Bool} :
    convertLoop source e0 (Item.tok "->" :: rest) A sink save
      = convertLoop source e0 rest A sink save := by
  simp only [convertLoop, itemText, isActionTok_arrow, isSinkTok_arrow, isConnectorTok_arrow,
    Bool.false_eq_true, if_false, if_true]

theorem convertLoop_drop {source : String} {e0 : List Item} {rest : List Item}
    {A : List (Track → Track)} {sink : Option String} {save : Bool} :
    convertLoop source e0 (Item.tok "drop" :: rest) A sink save = .ok none := by
  simp only [convertLoop, itemText, isActionTok_dropKw, isSinkTok_dropKw, isDropTok_dropKw,
    Bool.false_eq_true, if_false, if_true]

theorem convertLoop_var {source : String} {e0 : List Item} {v : String} {rest : List Item}
    {A : List (Track → Track)} {sink : Option String} {save : Bool} (hv : WordChars v.data)
    (hna : v ∉ actionKeywords) (hnd : v ≠ "drop") :
    convertLoop source e0 (Item.tok v :: rest) A sink save
      = convertLoop source e0 rest A (some v) save := by
  have h1 : isActionTok v = false := by
    cases hb : isActionTok v with
    | false => rfl
    | true => exact absurd ((isActionTok_wordChars_iff hv).mp hb) hna
  have h3 : isDropTok v = false := by
    cases hb : isDropTok v with
    | false => rfl
    | true => exact absurd ((isDropTok_wordChars_iff hv).mp hb) hnd
  simp only [convertLoop, itemText, h1, isSinkTok_of_wordChars hv, h3,
    isSaveTok_of_wordChars hv, Bool.false_eq_true, if_false, if_true]

theorem convertLoop_save {source : String} {e0 : List Item} {n : String} {rest : List Item}
    {A : List (Track → Track)} {sink : Option String} {save : Bool} (hn : WordChars n.data) :
    convertLoop source e0 (Item.grp ["save(", n, ")"] :: rest) A sink save
      = convertLoop source e0 rest A (some n) true := by
  simp only [convertLoop, isActionTok_grp_save n, isSinkTok_grp_save hn, isDropTok_grp_save n,
    isSaveTok_grp_save hn, Bool.false_eq_true, if_false, if_true]
  rfl

theorem convertLoop_interleave {source : String} {e0 : List Item} {acts : List String}
    {rest : List Item} {A : List (Track → Track)} {sink : Option String} {save : Bool}
    (h : ∀ a ∈ acts, a ∈ actionKeywords) :
    convertLoop source e0 (interleave acts ++ rest) A sink save
      = convertLoop source e0 rest (A ++ acts.map fnOf) sink save := by
  induction acts generalizing A with
  | nil => simp [interleave]
  | cons a as ih =>
    simp only [interleave, List.cons_append]
    rw [convertLoop_action (h a (List.mem_cons_self a as)), convertLoop_conn]
    rw [ih fun x hx => h x (List.mem_cons_of_mem a hx)]
    simp

theorem convertIntoPipeline_cons {src : String} {rest : List Item}
    (hsrc : WordChars src.data) :
    convertIntoPipeline (Item.tok src :: rest)
      = convertLoop src (Item.tok src :: rest) rest [] none false := by
  unfold convertIntoPipeline
  dsimp only
  rw [isSourceTok_of_wordChars hsrc]
  simp

/-- A grammar-shaped expression whose sink-position token is `drop` converts
to no pipeline at all. -/
theorem convert_drop {src : String} {acts : List String} (hsrc : WordChars src.data)
    (hacts : ∀ a ∈ acts, a ∈ actionKeywords) :
    convertIntoPipeline
        (Item.tok src :: Item.tok "->" :: (interleave acts ++ [Item.tok "drop"]))
      = .ok none := by
  rw [convertIntoPipeline_cons hsrc, convertLoop_conn, convertLoop_interleave hacts,
    convertLoop_drop]

/-- A grammar-shaped expression with a save-declaration sink compiles to a
pipeline with the inner identifier as sink name and `save = true`. -/
theorem convert_save {src n : String} {acts : List String} (hsrc : WordChars src.data)
    (hacts : ∀ a ∈ acts, a ∈ actionKeywords) (hn : WordChars n.data) :
    convertIntoPipeline
        (Item.tok src :: Item.tok "->" :: (interleave acts ++ [Item.grp ["save(", n, ")"]]))
      = .ok (some ⟨src, acts.map fnOf, n, true⟩) := by
  rw [convertIntoPipeline_cons hsrc, convertLoop_conn, convertLoop_interleave hacts,
    convertLoop_save hn, convertLoop_nil_some]
  simp

/-- A grammar-shaped expression with a plain identifier sink (no action
keyword, not `drop`) compiles to a pipeline with that identifier as sink and
`save = false`. -/
theorem convert_var {src v : String} {acts : List String} (hsrc : WordChars src.data)
    (hacts : ∀ a ∈ acts, a ∈ actionKeywords) (hv : WordChars v.data)
    (hna : v ∉ actionKeywords) (hnd : v ≠ "drop") :
    convertIntoPipeline
        (Item.tok src :: Item.tok "->" :: (interleave acts ++ [Item.tok v]))
      = .ok (some ⟨src, acts.map fnOf, v, false⟩) := by
  rw [convertIntoPipeline_cons hsrc, convertLoop_conn, convertLoop_interleave hacts,
    convertLoop_var hv hna hnd, convertLoop_nil_some]
  simp

/-- A grammar-shaped expression whose sink-position token is an action keyword
is walked with that token appended as an action, so no sink is ever set and
the missing-sink error is raised. -/
theorem convert_varAction {src v : String} {acts : List String} (hsrc : WordChars src.data)
    (hacts : ∀ a ∈ acts, a ∈ actionKeywords) (hv : v ∈ actionKeywords) :
    convertIntoPipeline
        (Item.tok src :: Item.tok "->" :: (interleave acts ++ [Item.tok v]))
      = .error (.missingSink
          (Item.tok src :: Item.tok "->" :: (interleave acts ++ [Item.tok v]))) := by
  rw [convertIntoPipeline_cons hsrc, convertLoop_conn, convertLoop_interleave hacts,
    convertLoop_action hv, convertLoop_nil_none]

/-!  The compilation loop. -/

/-- An expression group whose sink-position token is `drop`. -/
def sinkIsDrop (e : List Item) : Bool :=
  match e.getLast? with
  | some (Item.tok v) => v == "drop"
  | _ => false

/-- The number of expressions whose sink is not the drop construct. -/
def countNonDrop (es : List (List Item)) : Nat :=
  (es.filter fun e => ! sinkIsDrop e).length

theorem getLast_shape (src : String) (il : List Item) (x : Item) :
    (Item.tok src :: Item.tok "->" :: (il ++ [x])).getLast? = some x := by
  rw [show Item.tok src :: Item.tok "->" :: (il ++ [x])
      = (Item.tok src :: Item.tok "->" :: il) ++ [x] by simp]
  exact List.getLast?_concat _

/-- Dropped expressions contribute nothing to the compiled pipeline list,
wherever they occur. -/
theorem compileExprs_skip {e : List Item} (he : convertIntoPipeline e = .ok none) :
    ∀ l₁ l₂, compileExprs (l₁ ++ e :: l₂) = compileExprs (l₁ ++ l₂) := by
  intro l₁
  induction l₁ with
  | nil =>
    intro l₂
    simp [compileExprs, he]
  | cons x xs ih =>
    intro l₂
    simp only [List.cons_append, compileExprs, List.append_eq]
    rw [ih l₂]

/-- On a list of grammar-shaped expressions none of which carries an action
keyword in sink position, compilation succeeds and yields exactly one pipeline
per non-drop expression. -/
theorem compileExprs_good {es : List (List Item)}
    (hg : ∀ e ∈ es, GoodExpr e)
    (hna : ∀ e ∈ es, ∀ a ∈ actionKeywords, e.getLast? ≠ some (Item.tok a)) :
    ∃ ps, compileExprs es = .ok ps ∧ ps.length = countNonDrop es := by
  induction es with
  | nil => exact ⟨[], rfl, rfl⟩
  | cons e es ih =>
    rcases ih (fun x hx => hg x (List.mem_cons_of_mem e hx))
        (fun x hx => hna x (List.mem_cons_of_mem e hx)) with ⟨ps, hps, hlen⟩
    obtain ⟨src, acts, sinkItem, hsrc, hacts, hsink, hshape⟩ := hg e (List.mem_cons_self e es)
    have hlast : e.getLast? = some sinkItem := by
      rw [hshape]
      exact getLast_shape src (interleave acts) sinkItem
    cases hsink with
    | drop =>
      have hconv : convertIntoPipeline e = .ok none := by
        rw [hshape]
        exact convert_drop hsrc hacts
      have hd : sinkIsDrop e = true := by
        unfold sinkIsDrop
        rw [hlast]
        rfl
      refine ⟨ps, ?_, ?_⟩
      · simp [compileExprs, hconv, hps]
      · rw [hlen]
        unfold countNonDrop
        rw [List.filter_cons_of_neg (by rw [hd]; decide)]
    | save n hn =>
      have hconv : convertIntoPipeline e = .ok (some ⟨src, acts.map fnOf, n, true⟩) := by
        rw [hshape]
        exact convert_save hsrc hacts hn
      have hd : sinkIsDrop e = false := by
        unfold sinkIsDrop
        rw [hlast]
      refine ⟨⟨src, acts.map fnOf, n, true⟩ :: ps, ?_, ?_⟩
      · simp [compileExprs, hconv, hps]
      · unfold countNonDrop
        rw [List.filter_cons_of_pos (by rw [hd]; rfl)]
        rw [List.length_cons, hlen]
        rfl
    | var v hv =>
      have hvd : ¬ v ∈ actionKeywords := by
        intro hmem
        exact hna e (List.mem_cons_self e es) v hmem hlast
      by_cases hdrop : v = "drop"
      · subst hdrop
        have hconv : convertIntoPipeline e = .ok none := by
          rw [hshape]
          exact convert_drop hsrc hacts
        have hd : sinkIsDrop e = true := by
          unfold sinkIsDrop
          rw [hlast]
          rfl
        refine ⟨ps, ?_, ?_⟩
        · simp [compileExprs, hconv, hps]
        · rw [hlen]
          unfold countNonDrop
          rw [List.filter_cons_of_neg (by rw [hd]; decide)]
      · have hconv : convertIntoPipeline e = .ok (some ⟨src, acts.map fnOf, v, false⟩) := by
          rw [hshape]
          exact convert_var hsrc hacts hv hvd hdrop
        have hd : sinkIsDrop e = false := by
          unfold sinkIsDrop
          rw [hlast]
          simp [hdrop]
        refine ⟨⟨src, acts.map fnOf, v, false⟩ :: ps, ?_, ?_⟩
        · simp [compileExprs, hconv, hps]
        · unfold countNonDrop
          rw [List.filter_cons_of_pos (by rw [hd]; rfl)]
          rw [List.length_cons, hlen]
          rfl

/-!  Executor lemmas. -/

namespace PipelineProcessor

theorem processOne_ok_elim {s : TrackStore} {p : Pipeline} {s2 : TrackStore}
    (h : processOne s p = .ok s2) :
    ∃ src, s p.source = some src ∧
      s2 = updateStore s p.sink (mkSinkTrack (applyActions p.actions src.clone) p.save) := by
  unfold processOne at h
  split at h
  · exact absurd h (by simp)
  next src heq =>
    injection h with h
    exact ⟨src, heq, h.symm⟩

theorem processOne_ok_intro (s : TrackStore) (p : Pipeline) {src : Track}
    (h : s p.source = some src) :
    processOne s p = .ok (updateStore s p.sink (mkSinkTrack (applyActions p.actions src.clone) p.save)) := by
  unfold processOne
  rw [h]

theorem processOne_error {s : TrackStore} {p : Pipeline} (h : s p.source = none) :
    processOne s p = .error ⟨p.source, p⟩ := by
  unfold processOne
  rw [h]

/-- `_process` over a concatenation: run the first part; the second part runs
only if the first raised nothing. -/
theorem processAll_append (s : TrackStore) (ps qs : List Pipeline) :
    processAll s (ps ++ qs)
      = match processAll s ps with
        | (s1, none) => processAll s1 qs
        | (s1, some e) => (s1, some e) := by
  induction ps generalizing s with
  | nil => rfl
  | cons p ps ih =>
    simp only [List.cons_append, processAll]
    cases processOne s p with
    | ok s2 => exact ih s2
    | error e => rfl

/-- A name no pipeline in the list has as sink is never written. -/
theorem processAll_untouched (s : TrackStore) (ps : List Pipeline) (n : String)
    (h : ∀ q ∈ ps, q.sink ≠ n) : (processAll s ps).1 n = s n := by
  induction ps generalizing s with
  | nil => rfl
  | cons p ps ih =>
    simp only [processAll]
    cases hp : processOne s p with
    | error e => rfl
    | ok s2 =>
      rcases processOne_ok_elim hp with ⟨src, hsrc, hs2⟩
      have hs2n : s2 n = s n := by
        rw [hs2]
        unfold updateStore
        rw [if_neg fun hc => h p (List.mem_cons_self p ps) (hc.symm)]
      rw [ih s2 fun q hq => h q (List.mem_cons_of_mem p hq), hs2n]

theorem processOne_mono {s : TrackStore} {p : Pipeline} {s2 : TrackStore} {n : String}
    (h : processOne s p = .ok s2) (hn : (s n).isSome = true) : (s2 n).isSome = true := by
  rcases processOne_ok_elim h with ⟨src, hsrc, hs2⟩
  rw [hs2]
  unfold updateStore
  split
  · rfl
  · exact hn

theorem processAll_mono {s : TrackStore} {ps : List Pipeline} {s2 : TrackStore} {n : String}
    (h : processAll s ps = (s2, none)) (hn : (s n).isSome = true) : (s2 n).isSome = true := by
  induction ps generalizing s with
  | nil =>
    unfold processAll at h
    injection h with h1 h2
    rw [← h1]
    exact hn
  | cons p ps ih =>
    unfold processAll at h
    split at h
    next s3 hp => exact ih h (processOne_mono hp hn)
    next e hp =>
      injection h with h1 h2
      exact absurd h2.symm (by simp)

/-- After a successful run, every pipeline's sink name is present in the store. -/
theorem processAll_sink_present {s : TrackStore} {ps : List Pipeline} {s2 : TrackStore}
    (h : processAll s ps = (s2, none)) : ∀ q ∈ ps, (s2 q.sink).isSome = true := by
  induction ps generalizing s with
  | nil => intro q hq; exact absurd hq (List.not_mem_nil q)
  | cons p ps ih =>
    unfold processAll at h
    split at h
    next s3 hp =>
      intro q hq
      rcases List.mem_cons.mp hq with rfl | hq2
      · rcases processOne_ok_elim hp with ⟨src, hsrc, hs3⟩
        have : (s3 q.sink).isSome = true := by
          rw [hs3]
          unfold updateStore
          rw [if_pos rfl]
          rfl
        exact processAll_mono h this
      · exact ih h q hq2
    next e hp =>
      injection h with h1 h2
      exact absurd h2.symm (by simp)

end PipelineProcessor

/-!  Fuel-bounded mirrors of the two loop parsers.  `pActions` and
`pMoreExprs` are defined by well-founded recursion, which the kernel cannot
evaluate on concrete recipes; these structurally recursive twins (fuel: the
input length, an upper bound on the iterations) are proved equal to them and
used to evaluate concrete programs. -/

def pActionsF : Nat → List Char → List String × List Char
  | 0, cs => ([], cs)
  | fuel + 1, cs =>
    match pAction cs with
    | none => ([], cs)
    | some (a, cs1) =>
      match pConnector cs1 with
      | none => ([], cs)
      | some cs2 =>
        match pActionsF fuel cs2 with
        | (acts, r) => (a :: acts, r)

theorem pActionsF_eq : ∀ (fuel : Nat) (cs : List Char), cs.length ≤ fuel →
    pActionsF fuel cs = pActions cs := by
  intro fuel
  induction fuel with
  | zero =>
    intro cs h
    have hnil : cs = [] := List.length_eq_zero.mp (Nat.le_zero.mp h)
    subst hnil
    rw [pActions_none (by rfl)]
    rfl
  | succ n ih =>
    intro cs h
    unfold pActionsF
    cases h1 : pAction cs with
    | none => rw [pActions_none h1]
    | some acs1 =>
      obtain ⟨a, cs1⟩ := acs1
      dsimp only
      cases h2 : pConnector cs1 with
      | none => rw [pActions_noConn h1 h2]
      | some cs2 =>
        dsimp only
        have hle : cs1.length ≤ cs.length := pKeywords_le h1
        have hlt : cs2.length < cs1.length := pLit_lt (by decide) h2
        rw [ih cs2 (by omega), pActions_cons h1 h2]

def pExpressionF (cs : List Char) : Option (List Item × List Char) :=
  match pSource cs with
  | none => none
  | some (src, cs1) =>
    match pConnector cs1 with
    | none => none
    | some cs2 =>
      match pActionsF cs2.length cs2 with
      | (acts, cs3) =>
        match pSink cs3 with
        | none => none
        | some (sinkItem, cs4) =>
          some (Item.tok src :: Item.tok "->" :: (interleave acts ++ [sinkItem]), cs4)

theorem pExpressionF_eq (cs : List Char) : pExpressionF cs = pExpression cs := by
  unfold pExpressionF pExpression
  cases hs : pSource cs with
  | none => rfl
  | some r1 =>
    obtain ⟨src, cs1⟩ := r1
    dsimp only
    cases hc : pConnector cs1 with
    | none => rfl
    | some cs2 =>
      dsimp only
      rw [pActionsF_eq cs2.length cs2 (Nat.le_refl _)]

def pMoreExprsF : Nat → List Char → List TopItem × List Char
  | 0, cs => ([], cs)
  | fuel + 1, cs =>
    match pEol cs with
    | none => ([], cs)
    | some cs1 =>
      match pExpressionF cs1 with
      | none => ([], cs)
      | some (e, cs2) =>
        match pMoreExprsF fuel cs2 with
        | (ts, r) => (TopItem.semi :: TopItem.expr e :: ts, r)

theorem pMoreExprsF_eq : ∀ (fuel : Nat) (cs : List Char), cs.length ≤ fuel →
    pMoreExprsF fuel cs = pMoreExprs cs := by
  intro fuel
  induction fuel with
  | zero =>
    intro cs h
    have hnil : cs = [] := List.length_eq_zero.mp (Nat.le_zero.mp h)
    subst hnil
    rw [pMoreExprs_none (by rfl)]
    rfl
  | succ n ih =>
    intro cs h
    unfold pMoreExprsF
    cases h1 : pEol cs with
    | none => rw [pMoreExprs_none h1]
    | some cs1 =>
      dsimp only
      rw [pExpressionF_eq]
      cases h2 : pExpression cs1 with
      | none => rw [pMoreExprs_noExpr h1 h2]
      | some r2 =>
        obtain ⟨e, cs2⟩ := r2
        dsimp only
        have hlt : cs1.length < cs.length := pLit_lt (by decide) h1
        have hle : cs2.length ≤ cs1.length := pExpression_le h2
        rw [ih cs2 (by omega), pMoreExprs_cons h1 h2]

def pProgramF (program : String) : Option (List TopItem) :=
  match pExpressionF program.data with
  | none => none
  | some (e1, cs1) =>
    match pMoreExprsF cs1.length cs1 with
    | (ts, cs2) =>
      match pEol cs2 with
      | some cs3 =>
        if skipWs cs3 = [] then some (TopItem.expr e1 :: (ts ++ [TopItem.semi])) else none
      | none =>
        if skipWs cs2 = [] then some (TopItem.expr e1 :: ts) else none

theorem pProgramF_eq (program : String) : pProgramF program = pProgram program := by
  unfold pProgramF pProgram
  rw [pExpressionF_eq]
  cases hs : pExpression program.data with
  | none => rfl
  | some r1 =>
    obtain ⟨e1, cs1⟩ := r1
    dsimp only
    rw [pMoreExprsF_eq cs1.length cs1 (Nat.le_refl _)]

/-!  Concrete recipes, stores and pipelines used to witness the claims. -/

def prog0 : String := "vocals -> flat -> save(out); piano -> drop;"

def top0 : List TopItem :=
  [TopItem.expr [Item.tok "vocals", Item.tok "->", Item.tok "flat", Item.tok "->",
      Item.grp ["save(", "out", ")"]],
   TopItem.semi,
   TopItem.expr [Item.tok "piano", Item.tok "->", Item.tok "drop"],
   TopItem.semi]

def e0drop : List Item := [Item.tok "piano", Item.tok "->", Item.tok "drop"]

def e0save : List Item :=
  [Item.tok "vocals", Item.tok "->", Item.tok "flat", Item.tok "->",
   Item.grp ["save(", "out", ")"]]

def prog9 : String := "vocals -> sharp -> flat;"

def top9 : List TopItem :=
  [TopItem.expr [Item.tok "vocals", Item.tok "->", Item.tok "sharp", Item.tok "->",
      Item.tok "flat"],
   TopItem.semi]

def exTrack : Track := ⟨[1, 2, 3], 1, 100, false⟩

def exStore : TrackStore := fun n => if n = "vocals" then some exTrack else none

def exPipe1 : Pipeline := ⟨"vocals", [], "out", true⟩

def exOut1 : Track := mkSinkTrack (applyActions [] exTrack.clone) true

def exStore1 : TrackStore := updateStore exStore "out" exOut1

def exPipe2 : Pipeline := ⟨"out", [], "final", true⟩

def pMissing : Pipeline := ⟨"nosuch", [], "y", false⟩

def pAfter : Pipeline := ⟨"vocals", [], "z", false⟩

/-- Discriminator for the invalid-source error condition (the
`UnexpectedTokenTypeError` raised when an expression's first token does not
classify as a valid source). -/
def isInvalidSourceError : Except RecipeError (List Pipeline) → Bool
  | .error (.sem (.invalidSource _)) => true
  | _ => false

/-!  The claims. -/

/-- C1: for every pipeline whose sink name differs from its source name, one
execution step leaves the store's pre-existing entry for the source unchanged
and writes only the sink entry; the executor works on a clone of the source
track whose buffer is a copy and whose save flag is reset to false. -/
theorem C1_clone_frame (s : TrackStore) (p : Pipeline) (s2 : TrackStore)
    (hne : p.sink ≠ p.source) (h : PipelineProcessor.processOne s p = .ok s2) :
    s2 p.source = s p.source ∧ (∀ n, n ≠ p.sink → s2 n = s n) ∧
      (∀ t : Track, (Track.clone t).save = false ∧ (Track.clone t).audio = t.audio) := by
  rcases PipelineProcessor.processOne_ok_elim h with ⟨src, hsrc, hs2⟩
  refine ⟨?_, ?_, fun t => ⟨rfl, rfl⟩⟩
  · rw [hs2]
    unfold updateStore
    rw [if_neg fun hc => hne hc.symm]
  · intro n hn
    rw [hs2]
    unfold updateStore
    rw [if_neg hn]

/-- C1 witness: a concrete store holding only `vocals`, and the pipeline
`vocals -> save-less out`: after the step the `vocals` entry is untouched. -/
theorem C1_clone_frame_witness :
    ("out" : String) ≠ "vocals" ∧
    PipelineProcessor.processOne exStore exPipe1 = .ok exStore1 ∧
    (exStore1 "vocals" = exStore "vocals" ∧ (∀ n, n ≠ "out" → exStore1 n = exStore n) ∧
      (∀ t : Track, (Track.clone t).save = false ∧ (Track.clone t).audio = t.audio)) :=
  ⟨by decide, rfl, C1_clone_frame exStore exPipe1 exStore1 (by decide) rfl⟩

/-- C2: executing pipelines in order, a pipeline `p2` whose source equals an
earlier pipeline `p1`'s sink — with no intervening write to that name —
succeeds, and the track it reads (and clones) is exactly the track `p1`
produced, not whatever the store originally held under that name. -/
theorem C2_sequential_read (s : TrackStore) (ps1 ps2 : List Pipeline) (p1 p2 : Pipeline)
    (s1 s2 s3 : TrackStore) (srcT : Track)
    (h1 : PipelineProcessor.processAll s ps1 = (s1, none))
    (hsrc : s1 p1.source = some srcT)
    (h2 : PipelineProcessor.processOne s1 p1 = .ok s2)
    (h3 : PipelineProcessor.processAll s2 ps2 = (s3, none))
    (h4 : ∀ q ∈ ps2, q.sink ≠ p1.sink)
    (h5 : p2.source = p1.sink) :
    s3 p2.source = some (mkSinkTrack (applyActions p1.actions srcT.clone) p1.save) ∧
    PipelineProcessor.processOne s3 p2
      = .ok (updateStore s3 p2.sink
          (mkSinkTrack (applyActions p2.actions
            (mkSinkTrack (applyActions p1.actions srcT.clone) p1.save).clone) p2.save)) := by
  have h2b := PipelineProcessor.processOne_ok_intro s1 p1 hsrc
  rw [h2] at h2b
  injection h2b with h2b
  have hsink2 : s2 p1.sink
      = some (mkSinkTrack (applyActions p1.actions srcT.clone) p1.save) := by
    rw [h2b]
    unfold updateStore
    rw [if_pos rfl]
  have hsink3 : s3 p2.source
      = some (mkSinkTrack (applyActions p1.actions srcT.clone) p1.save) := by
    have hu := PipelineProcessor.processAll_untouched s2 ps2 p1.sink h4
    rw [h3] at hu
    dsimp only at hu
    rw [h5, hu, hsink2]
  exact ⟨hsink3, PipelineProcessor.processOne_ok_intro s3 p2 hsink3⟩

/-- C2 witness: `vocals -> out` then `out -> final`: the second pipeline reads
the first one's output. -/
theorem C2_sequential_read_witness :
    (∀ q ∈ ([] : List Pipeline), q.sink ≠ "out") ∧
    (exStore1 "out" = some exOut1 ∧
      PipelineProcessor.processOne exStore1 exPipe2
        = .ok (updateStore exStore1 "final" (mkSinkTrack (applyActions [] exOut1.clone) true))) :=
  ⟨by simp, C2_sequential_read exStore [] [] exPipe1 exPipe2 exStore exStore1 exStore1 exTrack
    rfl rfl rfl rfl (by simp) rfl⟩

/-- C3 counterexample: compiling `"save(vocals);"` does not fail with the
invalid-source error; it fails at the grammar stage with a parse exception
(the `MatchFirst` source slot reads `save` as an entity and then finds `(`
where `->` is required), exactly as the repository's own test expects. -/
theorem C3_parse_counterexample :
    getPipelines "save(vocals);" = .error RecipeError.parse ∧
    isInvalidSourceError (getPipelines "save(vocals);") = false := ⟨rfl, rfl⟩

/-- C3 amended: compiling the recipe `"save(vocals);"` fails, but with the
syntax-stage parse failure (`pp.ParseException`), not the invalid-source
semantic error — the grammar rejects the text before the compiler's
first-token check can run. -/
theorem C3_parse_amended : getPipelines "save(vocals);" = .error RecipeError.parse := rfl

/-- C4: compiling `"vocals -> flat;"` fails with the missing-sink error
(`UnexpectedTokenTypeError`, "No valid sink was provided"), a condition
distinct from the drop outcome (which is a success with no pipeline) and from
the invalid-source error condition. -/
theorem C4_missing_sink :
    getPipelines "vocals -> flat;"
      = .error (.sem (.missingSink [Item.tok "vocals", Item.tok "->", Item.tok "flat"])) ∧
    isInvalidSourceError (getPipelines "vocals -> flat;") = false := by
  constructor
  · unfold getPipelines
    rw [← pProgramF_eq]
    rfl
  · unfold isInvalidSourceError getPipelines
    rw [← pProgramF_eq]
    rfl

/-- C5 counterexample: `"piano -> sharp;"` is accepted by the grammar, yet
compilation does not succeed — it raises the missing-sink error — so "for
every grammar-accepted recipe compilation succeeds" is false. -/
theorem C5_count_counterexample :
    (pProgram "piano -> sharp;").isSome = true ∧
    getPipelines "piano -> sharp;"
      = .error (.sem (.missingSink [Item.tok "piano", Item.tok "->", Item.tok "sharp"])) := by
  constructor
  · rw [← pProgramF_eq]
    rfl
  · unfold getPipelines
    rw [← pProgramF_eq]
    rfl

/-- C5 amended: for every grammar-accepted recipe in which no expression has
an action keyword in sink position, compilation succeeds and the number of
compiled pipelines equals the number of expressions whose sink token is not
the drop construct. -/
theorem C5_count_amended (prog : String) (top : List TopItem)
    (h : pProgram prog = some top)
    (hna : ∀ e ∈ splitIntoExpressions top, ∀ a ∈ actionKeywords,
      e.getLast? ≠ some (Item.tok a)) :
    ∃ ps, getPipelines prog = .ok ps ∧
      ps.length = countNonDrop (splitIntoExpressions top) := by
  rcases compileExprs_good (pProgram_good h) hna with ⟨ps, hps, hlen⟩
  refine ⟨ps, ?_, hlen⟩
  unfold getPipelines
  rw [h]
  dsimp only
  rw [hps]

/-- C5 witness: a two-expression recipe, one saved and one dropped, compiles
to exactly one pipeline. -/
theorem C5_count_witness :
    (∀ e ∈ splitIntoExpressions top0, ∀ a ∈ actionKeywords,
      e.getLast? ≠ some (Item.tok a)) ∧
    (∃ ps, getPipelines prog0 = .ok ps ∧
      ps.length = countNonDrop (splitIntoExpressions top0)) :=
  ⟨by decide, C5_count_amended prog0 top0 (by rw [← pProgramF_eq]; rfl) (by decide)⟩

/-- C6: an expression of a grammar-accepted recipe whose sink is the drop
construct yields no Pipeline value, contributes nothing to the compiled
pipeline list wherever it occurs, and therefore the executor's store never
sees any effect of it. -/
theorem C6_drop_no_pipeline (prog : String) (top : List TopItem) (e : List Item)
    (h : pProgram prog = some top) (he : e ∈ splitIntoExpressions top)
    (hd : e.getLast? = some (Item.tok "drop")) :
    convertIntoPipeline e = .ok none ∧
    (∀ l1 l2, compileExprs (l1 ++ e :: l2) = compileExprs (l1 ++ l2)) ∧
    (∀ l1 l2 ps qs (s : TrackStore), compileExprs (l1 ++ e :: l2) = .ok ps →
      compileExprs (l1 ++ l2) = .ok qs →
      PipelineProcessor.processAll s ps = PipelineProcessor.processAll s qs) := by
  obtain ⟨src, acts, sinkItem, hsrc, hacts, hsink, hshape⟩ := pProgram_good h e he
  have hlast : e.getLast? = some sinkItem := by
    rw [hshape]
    exact getLast_shape src (interleave acts) sinkItem
  rw [hlast] at hd
  injection hd with hd
  subst hd
  have hconv : convertIntoPipeline e = .ok none := by
    rw [hshape]
    exact convert_drop hsrc hacts
  refine ⟨hconv, compileExprs_skip hconv, ?_⟩
  intro l1 l2 ps qs s hps hqs
  rw [compileExprs_skip hconv l1 l2, hqs] at hps
  injection hps with hps
  rw [hps]

/-- C6 witness: the dropped `piano -> drop` expression of a concrete recipe. -/
theorem C6_drop_no_pipeline_witness :
    e0drop ∈ splitIntoExpressions top0 ∧
    (convertIntoPipeline e0drop = .ok none ∧
      (∀ l1 l2, compileExprs (l1 ++ e0drop :: l2) = compileExprs (l1 ++ l2)) ∧
      (∀ l1 l2 ps qs (s : TrackStore), compileExprs (l1 ++ e0drop :: l2) = .ok ps →
        compileExprs (l1 ++ l2) = .ok qs →
        PipelineProcessor.processAll s ps = PipelineProcessor.processAll s qs)) :=
  ⟨by decide, C6_drop_no_pipeline prog0 top0 e0drop (by rw [← pProgramF_eq]; rfl)
    (by decide) rfl⟩

/-- C7: in a grammar-accepted recipe, an expression whose sink is a
save-declaration `save(x)` compiles to a pipeline with `save = true` and sink
`x` (the inner identifier), while an expression whose sink-position token is a
plain identifier compiles (when it compiles at all) to a pipeline with
`save = false` and that identifier as sink. -/
theorem C7_save_sink_flags (prog : String) (top : List TopItem) (e : List Item)
    (h : pProgram prog = some top) (he : e ∈ splitIntoExpressions top) :
    (∀ l, e.getLast? = some (Item.grp l) →
      ∃ x p, l = ["save(", x, ")"] ∧ convertIntoPipeline e = .ok (some p) ∧
        p.save = true ∧ p.sink = x) ∧
    (∀ v p, e.getLast? = some (Item.tok v) → convertIntoPipeline e = .ok (some p) →
      p.save = false ∧ p.sink = v) := by
  obtain ⟨src, acts, sinkItem, hsrc, hacts, hsink, hshape⟩ := pProgram_good h e he
  have hlast : e.getLast? = some sinkItem := by
    rw [hshape]
    exact getLast_shape src (interleave acts) sinkItem
  constructor
  · intro l hl
    rw [hlast] at hl
    injection hl with hl
    cases hsink with
    | drop => exact Item.noConfusion hl
    | save n hn =>
      injection hl with hl
      refine ⟨n, ⟨src, acts.map fnOf, n, true⟩, hl.symm, ?_, rfl, rfl⟩
      rw [hshape]
      exact convert_save hsrc hacts hn
    | var v hv => exact Item.noConfusion hl
  · intro v p hl hconv
    rw [hlast] at hl
    injection hl with hl
    cases hsink with
    | drop =>
      rw [hshape, convert_drop hsrc hacts] at hconv
      injection hconv with hconv
      exact Option.noConfusion hconv
    | save n hn => exact Item.noConfusion hl
    | var v2 hv2 =>
      injection hl with hl2
      subst hl2
      by_cases hmem : v2 ∈ actionKeywords
      · rw [hshape, convert_varAction hsrc hacts hmem] at hconv
        exact Except.noConfusion hconv
      · by_cases hdrop : v2 = "drop"
        · subst hdrop
          rw [hshape, convert_drop hsrc hacts] at hconv
          injection hconv with hconv
          exact Option.noConfusion hconv
        · rw [hshape, convert_var hsrc hacts hv2 hmem hdrop] at hconv
          injection hconv with hconv
          injection hconv with hconv
          rw [← hconv]
          exact ⟨rfl, rfl⟩

/-- C7 witness: the `vocals -> flat -> save(out)` expression of a concrete
recipe, instantiating both branches. -/
theorem C7_save_sink_flags_witness :
    e0save ∈ splitIntoExpressions top0 ∧
    ((∀ l, e0save.getLast? = some (Item.grp l) →
      ∃ x p, l = ["save(", x, ")"] ∧ convertIntoPipeline e0save = .ok (some p) ∧
        p.save = true ∧ p.sink = x) ∧
    (∀ v p, e0save.getLast? = some (Item.tok v) →
      convertIntoPipeline e0save = .ok (some p) → p.save = false ∧ p.sink = v)) :=
  ⟨by decide, C7_save_sink_flags prog0 top0 e0save (by rw [← pProgramF_eq]; rfl) (by decide)⟩

/-- C8: if, when a pipeline is reached, its source name is absent from the
store, the run fails with the `NoPipelineSourceError` naming the missing
identifier and the offending pipeline; pipelines after it never execute and
the whole run raises — no output phase happens. -/
theorem C8_missing_source_halts (s : TrackStore) (ps1 ps2 : List Pipeline) (p : Pipeline)
    (s1 : TrackStore)
    (h1 : PipelineProcessor.processAll s ps1 = (s1, none))
    (h2 : s1 p.source = none) :
    PipelineProcessor.processAll s (ps1 ++ p :: ps2) = (s1, some ⟨p.source, p⟩) ∧
    PipelineProcessor.process s (ps1 ++ p :: ps2) = .error ⟨p.source, p⟩ := by
  have hstep : PipelineProcessor.processAll s1 (p :: ps2) = (s1, some ⟨p.source, p⟩) := by
    unfold PipelineProcessor.processAll
    rw [PipelineProcessor.processOne_error h2]
  have hall : PipelineProcessor.processAll s (ps1 ++ p :: ps2)
      = (s1, some ⟨p.source, p⟩) := by
    rw [PipelineProcessor.processAll_append, h1]
    exact hstep
  refine ⟨hall, ?_⟩
  unfold PipelineProcessor.process
  rw [hall]

/-- C8 witness: after `vocals -> out`, the pipeline reading `nosuch` fails and
the pipeline after it never runs. -/
theorem C8_missing_source_halts_witness :
    exStore1 "nosuch" = none ∧
    (PipelineProcessor.processAll exStore ([exPipe1] ++ pMissing :: [pAfter])
        = (exStore1, some ⟨"nosuch", pMissing⟩) ∧
      PipelineProcessor.process exStore ([exPipe1] ++ pMissing :: [pAfter])
        = .error ⟨"nosuch", pMissing⟩) :=
  ⟨rfl, C8_missing_source_halts exStore [exPipe1] [pAfter] pMissing exStore1 rfl rfl⟩

/-- C9 counterexample: the claim's conclusion "no compiled Pipeline ever has a
sink name equal to an action keyword" is false — `"vocals -> save(flat);"`
compiles to a pipeline whose sink name is the action keyword `flat`. -/
theorem C9_action_sink_counterexample :
    getPipelines "vocals -> save(flat);" = .ok [⟨"vocals", [], "flat", true⟩] ∧
    "flat" ∈ actionKeywords := by
  constructor
  · unfold getPipelines
    rw [← pProgramF_eq]
    rfl
  · decide

/-- C9 amended: because actions are tested before sinks, a grammar-accepted
expression whose sink-position token is one of the eight action keywords
ends its walk with no sink set and raises the missing-sink error; hence no
compiled Pipeline with `save = false` (a plain-identifier sink) ever has a
sink name equal to an action keyword.  (A save-declaration sink `save(x)` can
still produce a sink named after an action keyword.) -/
theorem C9_action_sink_amended (prog : String) (top : List TopItem)
    (h : pProgram prog = some top) :
    (∀ e ∈ splitIntoExpressions top, ∀ a ∈ actionKeywords,
      e.getLast? = some (Item.tok a) → convertIntoPipeline e = .error (.missingSink e)) ∧
    (∀ e ∈ splitIntoExpressions top, ∀ p, convertIntoPipeline e = .ok (some p) →
      p.save = false → p.sink ∉ actionKeywords) := by
  constructor
  · intro e he a ha hlast2
    obtain ⟨src, acts, sinkItem, hsrc, hacts, hsink, hshape⟩ := pProgram_good h e he
    have hlast : e.getLast? = some sinkItem := by
      rw [hshape]
      exact getLast_shape src (interleave acts) sinkItem
    rw [hlast] at hlast2
    injection hlast2 with hlast2
    cases hsink with
    | drop =>
      injection hlast2 with hlast2
      rw [← hlast2] at ha
      exact absurd ha (by decide)
    | save n hn => exact Item.noConfusion hlast2
    | var v hv =>
      injection hlast2 with hlast2
      subst hlast2
      rw [hshape]
      exact convert_varAction hsrc hacts ha
  · intro e he p hconv hsave
    obtain ⟨src, acts, sinkItem, hsrc, hacts, hsink, hshape⟩ := pProgram_good h e he
    cases hsink with
    | drop =>
      rw [hshape, convert_drop hsrc hacts] at hconv
      injection hconv with hconv
      exact Option.noConfusion hconv
    | save n hn =>
      rw [hshape, convert_save hsrc hacts hn] at hconv
      injection hconv with hconv
      injection hconv with hconv
      rw [← hconv] at hsave
      exact Bool.noConfusion hsave
    | var v hv =>
      by_cases hmem : v ∈ actionKeywords
      · rw [hshape, convert_varAction hsrc hacts hmem] at hconv
        exact Except.noConfusion hconv
      · by_cases hdrop : v = "drop"
        · subst hdrop
          rw [hshape, convert_drop hsrc hacts] at hconv
          injection hconv with hconv
          exact Option.noConfusion hconv
        · rw [hshape, convert_var hsrc hacts hv hmem hdrop] at hconv
          injection hconv with hconv
          injection hconv with hconv
          rw [← hconv]
          exact hmem

/-- C9 witness: the recipe `"vocals -> sharp -> flat;"`, whose single
expression carries the action keyword `flat` in sink position. -/
theorem C9_action_sink_witness :
    (∀ e ∈ splitIntoExpressions top9, ∀ a ∈ actionKeywords,
      e.getLast? = some (Item.tok a) → convertIntoPipeline e = .error (.missingSink e)) ∧
    (∀ e ∈ splitIntoExpressions top9, ∀ p, convertIntoPipeline e = .ok (some p) →
      p.save = false → p.sink ∉ actionKeywords) :=
  C9_action_sink_amended prog9 top9 (by rw [← pProgramF_eq]; rfl)

/-- C10: when the run fails with the missing-source error at some pipeline,
the store at that moment is exactly the initial store overlaid with the sink
writes of the pipelines before it: the failing pipeline and everything after
it contribute no modification, every name not written by an earlier sink
still holds its initial entry, and every earlier sink name is present. -/
theorem C10_store_at_failure (s : TrackStore) (ps1 ps2 : List Pipeline) (p : Pipeline)
    (s1 : TrackStore)
    (h1 : PipelineProcessor.processAll s ps1 = (s1, none))
    (h2 : s1 p.source = none) :
    (PipelineProcessor.processAll s (ps1 ++ p :: ps2)).1 = s1 ∧
    (∀ n, (∀ q ∈ ps1, q.sink ≠ n) → s1 n = s n) ∧
    (∀ q ∈ ps1, (s1 q.sink).isSome = true) := by
  refine ⟨?_, ?_, PipelineProcessor.processAll_sink_present h1⟩
  · have hstep : PipelineProcessor.processAll s1 (p :: ps2) = (s1, some ⟨p.source, p⟩) := by
      unfold PipelineProcessor.processAll
      rw [PipelineProcessor.processOne_error h2]
    have hall : PipelineProcessor.processAll s (ps1 ++ p :: ps2)
        = (s1, some ⟨p.source, p⟩) := by
      rw [PipelineProcessor.processAll_append, h1]
      exact hstep
    rw [hall]
  · intro n hn
    have := PipelineProcessor.processAll_untouched s ps1 n hn
    rw [h1] at this
    exact this

/-- C10 witness: the failing run of C8's scenario leaves exactly the initial
`vocals` entry plus the `out` entry written before the failure. -/
theorem C10_store_at_failure_witness :
    exStore1 "nosuch" = none ∧
    ((PipelineProcessor.processAll exStore ([exPipe1] ++ pMissing :: [pAfter])).1 = exStore1 ∧
      (∀ n, (∀ q ∈ [exPipe1], q.sink ≠ n) → exStore1 n = exStore n) ∧
      (∀ q ∈ [exPipe1], (exStore1 q.sink).isSome = true)) :=
  ⟨rfl, C10_store_at_failure exStore [exPipe1] [pAfter] pMissing exStore1 rfl rfl⟩

end Brownify
